/-
Verification of the Parallel File Hasher repository.

The development embeds the concurrent core of the program (the ThreadPool
of src/src/ThreadPool.cpp driven by main in src/src/main.cpp, whose tasks
run process_file) as a small-step interleaving transition system: each
worker thread is a program counter walking through the worker loop and the
body of process_file, the three mutexes (queue_mutex, results_mutex,
cout_mutex) are holder fields, and the main thread is a phase that
enqueues, sets the stop flag, joins, and then reports.  The sequential
helpers (process_file, get_file_hash of the earlier worker variants, the
argument-parsing loops of src/src/main.cpp and src/unnamed/part_001,
std::stoi, and the discovery filter) are embedded as executable functions.
-/
import Mathlib

namespace PFH

/-- A pool configuration: the worker count handed to the ThreadPool
constructor, the number N of discovered files (tasks are indices into the
files_to_process vector), and for each task whether its ifstream opens,
its path string and the digest picosha2 would produce.  The digest is the
external Digest Function and is treated as an opaque per-file string. -/
structure PoolCfg where
  W : Nat
  N : Nat
  openable : Nat → Bool
  pathOf : Nat → String
  digestOf : Nat → String

/-- The Result Entry that process_file appends for task t:
results.emplace_back(file_path, hash). -/
def entryOf (c : PoolCfg) (t : Nat) : String × String :=
  (c.pathOf t, c.digestOf t)

/-- Program counter of one worker thread, following ThreadPool::worker with
the body of process_file inlined at the task() call:
acqQ = about to lock queue_mutex; check = holding queue_mutex, evaluating
the wait predicate; openT = opening the ifstream (no lock); hashT = running
picosha2 over the stream (no lock); acqR = about to lock results_mutex;
appendT = holding results_mutex, about to emplace_back; incrT = the atomic
++processed_files_count; acqC = about to lock cout_mutex; renderT = holding
cout_mutex, printing the progress bar; doneW = the thread returned. -/
inductive Wpc where
  | acqQ
  | check
  | openT (t : Nat)
  | hashT (t : Nat)
  | acqR (t : Nat)
  | appendT (t : Nat)
  | incrT (t : Nat)
  | acqC (t : Nat)
  | renderT (t : Nat)
  | doneW
  deriving DecidableEq

/-- Phase of the main thread in src/src/main.cpp after discovery: enq rem =
inside the pool.enqueue loop with rem still to submit; stopping = at the
closing brace, ThreadPool destructor entered; joining = stop flag set,
join loop running; reporting = all joins returned, final report emitted;
finished = return 0. -/
inductive Mph where
  | enq (rem : List Nat)
  | stopping
  | joining
  | reporting
  | finished
  deriving DecidableEq

/-- Global state of the transition system.  queue is ThreadPool::tasks
(task indices), stopped is ThreadPool::stop, results and counter are the
globals of main.cpp, qM rM cM are the holders of queue_mutex,
results_mutex and cout_mutex (none = unlocked, some w = held by worker w;
main's own critical sections are modelled as atomic so main never holds a
lock across a state), and log records, in pop order, the tasks removed
from the queue by workers. -/
structure St where
  queue : List Nat
  stopped : Bool
  results : List (String × String)
  counter : Nat
  wpc : Nat → Wpc
  mph : Mph
  qM : Option Nat
  rM : Option Nat
  cM : Option Nat
  log : List Nat

/-- Initial state: empty queue, stop false, all workers entering their
loop, main about to enqueue one task per discovered file. -/
def initSt (c : PoolCfg) : St :=
  { queue := []
    stopped := false
    results := []
    counter := 0
    wpc := fun _ => Wpc.acqQ
    mph := Mph.enq (List.range c.N)
    qM := none
    rM := none
    cM := none
    log := [] }

/-- One interleaving step.  Worker rules require w < c.W (only the threads
the constructor launched exist).  Critical sections under a single mutex
are split so that the mutex is visibly held in intermediate states. -/
inductive Step (c : PoolCfg) : St → St → Prop where
  | enq (s : St) (t : Nat) (r : List Nat) :
      s.mph = Mph.enq (t :: r) → s.qM = none →
      Step c s { s with queue := s.queue ++ [t], mph := Mph.enq r }
  | enqFin (s : St) :
      s.mph = Mph.enq [] →
      Step c s { s with mph := Mph.stopping }
  | setStop (s : St) :
      s.mph = Mph.stopping → s.qM = none →
      Step c s { s with stopped := true, mph := Mph.joining }
  | joinFin (s : St) :
      s.mph = Mph.joining → (∀ w, w < c.W → s.wpc w = Wpc.doneW) →
      Step c s { s with mph := Mph.reporting }
  | reportFin (s : St) :
      s.mph = Mph.reporting →
      Step c s { s with mph := Mph.finished }
  | wAcqQ (s : St) (w : Nat) :
      w < c.W → s.wpc w = Wpc.acqQ → s.qM = none →
      Step c s { s with qM := some w, wpc := Function.update s.wpc w Wpc.check }
  | wExit (s : St) (w : Nat) :
      w < c.W → s.wpc w = Wpc.check → s.qM = some w →
      s.stopped = true → s.queue = [] →
      Step c s { s with qM := none, wpc := Function.update s.wpc w Wpc.doneW }
  | wPop (s : St) (w t : Nat) (r : List Nat) :
      w < c.W → s.wpc w = Wpc.check → s.qM = some w → s.queue = t :: r →
      Step c s { s with queue := r, log := s.log ++ [t], qM := none,
                        wpc := Function.update s.wpc w (Wpc.openT t) }
  | wRewait (s : St) (w : Nat) :
      w < c.W → s.wpc w = Wpc.check → s.qM = some w →
      s.stopped = false → s.queue = [] →
      Step c s { s with qM := none, wpc := Function.update s.wpc w Wpc.acqQ }
  | wOpenFail (s : St) (w t : Nat) :
      w < c.W → s.wpc w = Wpc.openT t → c.openable t = false →
      Step c s { s with wpc := Function.update s.wpc w Wpc.acqQ }
  | wOpenOk (s : St) (w t : Nat) :
      w < c.W → s.wpc w = Wpc.openT t → c.openable t = true →
      Step c s { s with wpc := Function.update s.wpc w (Wpc.hashT t) }
  | wHash (s : St) (w t : Nat) :
      w < c.W → s.wpc w = Wpc.hashT t →
      Step c s { s with wpc := Function.update s.wpc w (Wpc.acqR t) }
  | wAcqRes (s : St) (w t : Nat) :
      w < c.W → s.wpc w = Wpc.acqR t → s.rM = none →
      Step c s { s with rM := some w, wpc := Function.update s.wpc w (Wpc.appendT t) }
  | wAppend (s : St) (w t : Nat) :
      w < c.W → s.wpc w = Wpc.appendT t → s.rM = some w →
      Step c s { s with results := s.results ++ [entryOf c t], rM := none,
                        wpc := Function.update s.wpc w (Wpc.incrT t) }
  | wIncr (s : St) (w t : Nat) :
      w < c.W → s.wpc w = Wpc.incrT t →
      Step c s { s with counter := s.counter + 1,
                        wpc := Function.update s.wpc w (Wpc.acqC t) }
  | wAcqCout (s : St) (w t : Nat) :
      w < c.W → s.wpc w = Wpc.acqC t → s.cM = none →
      Step c s { s with cM := some w, wpc := Function.update s.wpc w (Wpc.renderT t) }
  | wRender (s : St) (w t : Nat) :
      w < c.W → s.wpc w = Wpc.renderT t → s.cM = some w →
      Step c s { s with cM := none, wpc := Function.update s.wpc w Wpc.acqQ }

/-- States reachable from the initial state by interleaving steps. -/
inductive Reach (c : PoolCfg) : St → Prop where
  | init : Reach c (initSt c)
  | next {s s2 : St} : Reach c s → Step c s s2 → Reach c s2

/-- Tasks the main thread still has to enqueue in a given phase. -/
def remOf : Mph → List Nat
  | Mph.enq r => r
  | _ => []

/-- Contribution of one worker pc to the pending progress-counter
increments: 1 while the worker holds a task whose increment has not yet
executed (an unopenable task never increments, mirroring the early return
of process_file). -/
def pendIncPc (c : PoolCfg) : Wpc → Nat
  | Wpc.openT t => if c.openable t then 1 else 0
  | Wpc.hashT _ => 1
  | Wpc.acqR _ => 1
  | Wpc.appendT _ => 1
  | Wpc.incrT _ => 1
  | _ => 0

/-- Contribution of one worker pc to the Result Entries not yet appended:
the entry for the held task while the append has not executed. -/
def pendAppPc (c : PoolCfg) : Wpc → Multiset (String × String)
  | Wpc.openT t => if c.openable t then {entryOf c t} else 0
  | Wpc.hashT t => {entryOf c t}
  | Wpc.acqR t => {entryOf c t}
  | Wpc.appendT t => {entryOf c t}
  | _ => 0

/-- Total pending counter increments across the pool. -/
def pendInc (c : PoolCfg) (s : St) : Nat :=
  ∑ w ∈ Finset.range c.W, pendIncPc c (s.wpc w)

/-- Total pending Result Entries across the pool. -/
def pendApp (c : PoolCfg) (s : St) : Multiset (String × String) :=
  ∑ w ∈ Finset.range c.W, pendAppPc c (s.wpc w)

/-- The global invariant: conservation of tasks between main's remaining
list, the queue and the pop log; exact bookkeeping of the counter and the
Result Sink against the log; each mutex is held only by an existing worker
sitting in the corresponding critical section; the stop flag mirrors
main's phase; a worker returns only once stop is set and the queue is
empty; after the join loop finishes every worker has returned. -/
structure Inv (c : PoolCfg) (s : St) : Prop where
  conserve :
    (s.queue : Multiset Nat) + (remOf s.mph : Multiset Nat) + (s.log : Multiset Nat)
      = (List.range c.N : Multiset Nat)
  cnt : s.counter + pendInc c s = (s.log.filter fun t => c.openable t).length
  res :
    (s.results : Multiset (String × String)) + pendApp c s
      = ((s.log.filter fun t => c.openable t).map (entryOf c) : Multiset (String × String))
  qlock : ∀ v, s.qM = some v → v < c.W ∧ s.wpc v = Wpc.check
  rlock : ∀ v, s.rM = some v → v < c.W ∧ ∃ t, s.wpc v = Wpc.appendT t
  clock : ∀ v, s.cM = some v → v < c.W ∧ ∃ t, s.wpc v = Wpc.renderT t
  stopPh :
    s.stopped = true ↔ (s.mph = Mph.joining ∨ s.mph = Mph.reporting ∨ s.mph = Mph.finished)
  doneQ : ∀ w, w < c.W → s.wpc w = Wpc.doneW → s.stopped = true ∧ s.queue = []
  repDone :
    (s.mph = Mph.reporting ∨ s.mph = Mph.finished) → ∀ w, w < c.W → s.wpc w = Wpc.doneW

/-- State of the shared result globals, for sequential reasoning about one
task body at a time. -/
structure SinkSt where
  results : List (String × String)
  counter : Nat
  deriving DecidableEq

/-- Effect of process_file (src/src/main.cpp) for task t on the shared
globals: if the ifstream does not open, process_file returns at once and
touches nothing; otherwise it appends (path, hash) to results and
increments processed_files_count (the progress render writes no shared
data beyond the terminal). -/
def processFile (c : PoolCfg) (t : Nat) (st : SinkSt) : SinkSt :=
  if c.openable t then
    { results := st.results ++ [entryOf c t], counter := st.counter + 1 }
  else
    st

/-- Running a list of tasks one after the other from the pristine globals. -/
def runSeq (c : PoolCfg) (ts : List Nat) : SinkSt :=
  ts.foldl (fun st t => processFile c t st) { results := [], counter := 0 }

/-- get_file_hash of the earlier worker variants (src/unnamed/part_000,
src/unnamed/part_001 and the second document embedded in
src/src/main.cpp): an unopenable file yields the failure marker string
instead of a digest. -/
def getFileHash (c : PoolCfg) (t : Nat) : String :=
  if c.openable t then c.digestOf t else "Error: Could not open file."

/-- Body of the worker loop of the second document embedded in
src/src/main.cpp (lines around 167-181 of the concatenated file): every
popped task records an entry, failure-marked or not, and increments the
counter. -/
def workerTaskV2 (c : PoolCfg) (t : Nat) (st : SinkSt) : SinkSt :=
  { results := st.results ++ [(c.pathOf t, getFileHash c t)]
    counter := st.counter + 1 }

/-- Result of std::stoi: a parsed int, an invalid_argument throw, or an
out_of_range throw. -/
inductive StoiRes where
  | ok (n : Int)
  | invalid
  | range
  deriving DecidableEq

/-- Whitespace skipped by strtol/stoi in the C locale. -/
def isSpaceC (ch : Char) : Bool :=
  ch = ' ' || ch = Char.ofNat 9 || ch = Char.ofNat 10 ||
  ch = Char.ofNat 11 || ch = Char.ofNat 12 || ch = Char.ofNat 13

/-- Value of a digit list, most significant first. -/
def digitsVal (l : List Char) : Nat :=
  l.foldl (fun a ch => a * 10 + (ch.toNat - 48)) 0

/-- std::stoi on a character list: skip leading whitespace, optional sign,
then the longest digit prefix (trailing garbage is ignored); no digit is
invalid_argument; values outside int range are out_of_range. -/
def stoiCore (l : List Char) : StoiRes :=
  let l1 := l.dropWhile isSpaceC
  let sl : Int × List Char :=
    match l1 with
    | '-' :: r => (-1, r)
    | '+' :: r => (1, r)
    | _ => (1, l1)
  let ds := sl.2.takeWhile fun ch => ch.isDigit
  if ds = [] then StoiRes.invalid
  else
    let v : Int := sl.1 * (digitsVal ds : Int)
    if v < -2147483648 ∨ 2147483647 < v then StoiRes.range else StoiRes.ok v

/-- std::stoi on a string. -/
def stoi (s : String) : StoiRes :=
  stoiCore s.toList

/-- The C++ conversion int → unsigned int performed by the assignment
num_threads = std::stoi(...): reduction modulo 2^32. -/
def toUnsigned (n : Int) : Nat :=
  (n % 4294967296).toNat

/-- Options accumulated by the argument loop of src/src/main.cpp. -/
structure Opts where
  threads : Nat
  recursive : Bool
  filters : List String
  outFile : String
  deriving DecidableEq

/-- Defaults before the loop: hardware_concurrency for the thread count,
non-recursive, no filters, console output. -/
def defaultOpts (hw : Nat) : Opts :=
  { threads := hw, recursive := false, filters := [], outFile := "" }

/-- The first character of a std::string as operator[](0) reads it: the
null character when the string is empty. -/
def headChar (x : String) : Char :=
  match x.toList with
  | [] => Char.ofNat 0
  | ch :: _ => ch

/-- The inner --filter loop condition args[i][0] != '-'; for the empty
string, std::string::operator[] at position 0 yields the null character,
which differs from '-', so an empty argument is accepted as a filter. -/
def notDash (x : String) : Bool :=
  headChar x != '-'

/-- The argument loop of src/src/main.cpp over args[1..].  The inner
while of --filter (consume following arguments until one starts with a
dash, then step back and let the outer loop process that argument) is
rendered by the inFilter flag: while the flag is set, a non-dash argument
is inserted into the filter set and the flag survives; any other argument
is handled exactly as the outer loop would.  A -j value is parsed with
stoi inside try/catch(...) whose handler is empty, so a throw leaves
num_threads unchanged; a parsed value is assigned to the unsigned
num_threads. -/
def parseArgsAux : List String → Opts → Bool → Opts
  | [], o, _ => o
  | a :: rest, o, inFilter =>
    if inFilter && notDash a then
      parseArgsAux rest { o with filters := o.filters ++ [a] } true
    else if a = "-j" then
      match rest with
      | v :: r =>
        match stoi v with
        | StoiRes.ok n => parseArgsAux r { o with threads := toUnsigned n } false
        | _ => parseArgsAux r o false
      | [] => o
    else if a = "-r" || a = "--recursive" then
      parseArgsAux rest { o with recursive := true } false
    else if a = "-o" || a = "--output" then
      match rest with
      | v :: r => parseArgsAux r { o with outFile := v } false
      | [] => o
    else if a = "--filter" then
      match rest with
      | _ :: _ => parseArgsAux rest o true
      | [] => o
    else
      parseArgsAux rest o false

/-- Outcome of the argument validation of src/unnamed/part_001: a thread
count to use, a configuration-error exit(1), or an uncaught out_of_range
(only invalid_argument is caught there). -/
inductive Out001 where
  | ok (threads : Nat)
  | err
  | crash
  deriving DecidableEq

/-- std::find(args, "-j") followed by next(it): the value after the first
"-j" that has a successor. -/
def jValue : List String → Option String
  | [] => none
  | "-j" :: v :: _ => some v
  | _ :: rest => jValue rest

/-- Argument handling of src/unnamed/part_001: argc must be 2..4; a -j
value is parsed with stoi, a positive result is used, a non-positive one
is a configuration error, invalid_argument is a configuration error, and
out_of_range escapes the catch. -/
def parse001 (hw : Nat) (args : List String) : Out001 :=
  if args.length < 1 ∨ 3 < args.length then Out001.err
  else
    match jValue args with
    | none => Out001.ok hw
    | some v =>
      match stoi v with
      | StoiRes.ok n => if 0 < n then Out001.ok n.toNat else Out001.err
      | StoiRes.invalid => Out001.err
      | StoiRes.range => Out001.crash

/-- A directory entry as the discovery loop sees it: whether
entry.is_regular_file() holds, the string of entry.path().extension()
(including its leading dot, empty when there is none), and the path. -/
structure Dirent where
  isReg : Bool
  ext : String
  name : String
  deriving DecidableEq

/-- The filesystem as the program observes it: whether the root is a
directory, whether iteration completes without filesystem_error, and the
entry sequences produced by directory_iterator and
recursive_directory_iterator. -/
structure Fs where
  isDir : Bool
  scanOk : Bool
  shallow : List Dirent
  deep : List Dirent
  deriving DecidableEq

/-- The discovery condition of src/src/main.cpp:
entry.is_regular_file() && (filters.empty() || filters.count(extension)). -/
def selected (filters : List String) (e : Dirent) : Bool :=
  e.isReg && (filters.isEmpty || filters.contains e.ext)

/-- Files pushed into files_to_process. -/
def discovered (o : Opts) (fs : Fs) : List Dirent :=
  (if o.recursive then fs.deep else fs.shallow).filter (selected o.filters)

/-- Control-flow outcome of main in src/src/main.cpp: usage error
(argc < 2), invalid root directory, filesystem_error during the scan,
zero matching files (early return 0 before any ThreadPool exists), or a
normal run handing the discovered files to a pool with the given thread
count. -/
inductive MainOut where
  | usage
  | badDir
  | scanFail
  | noFiles
  | run (threads : Nat) (files : List Dirent)
  deriving DecidableEq

/-- main of src/src/main.cpp up to the point where the pool takes over:
argument parsing, directory validation, discovery, and the zero-file
early return. -/
def mainRun (hw : Nat) (args : List String) (fs : Fs) : MainOut :=
  match args with
  | [] => MainOut.usage
  | _ :: rest =>
    let o := parseArgsAux rest (defaultOpts hw) false
    if !fs.isDir then MainOut.badDir
    else if !fs.scanOk then MainOut.scanFail
    else
      let files := discovered o fs
      if files.isEmpty then MainOut.noFiles
      else MainOut.run o.threads files

/-- Exit status of each outcome: 1 for the three error paths, 0 for the
zero-file return and for a completed run (main always ends in return 0
once processing starts). -/
def exitCode : MainOut → Nat
  | MainOut.usage => 1
  | MainOut.badDir => 1
  | MainOut.scanFail => 1
  | MainOut.noFiles => 0
  | MainOut.run _ _ => 0

/-- Pool configuration with one worker and one openable file, used to
exercise the theorems on a concrete execution. -/
def cfg1 : PoolCfg :=
  { W := 1, N := 1, openable := fun _ => true,
    pathOf := fun _ => "dir/a.txt", digestOf := fun _ => "9f86d081" }

/-- Pool configuration with one worker and one unopenable file. -/
def cfg2 : PoolCfg :=
  { W := 1, N := 1, openable := fun _ => false,
    pathOf := fun _ => "dir/locked.bin", digestOf := fun _ => "deadbeef" }

/-- Pool configuration with zero workers and two files. -/
def cfg3 : PoolCfg :=
  { W := 0, N := 2, openable := fun _ => true,
    pathOf := fun _ => "dir/b.txt", digestOf := fun _ => "cafef00d" }

/-- A filesystem with a valid root holding one regular .txt file. -/
def fs1 : Fs :=
  { isDir := true, scanOk := true,
    shallow := [{ isReg := true, ext := ".txt", name := "a.txt" }],
    deep := [{ isReg := true, ext := ".txt", name := "a.txt" }] }

/-- Two tasks, of which only task 1 can be opened: task 0 stands for a
file deleted or locked between discovery and hashing. -/
def cfgMix : PoolCfg :=
  { W := 1, N := 2, openable := fun t => t == 1,
    pathOf := fun t => if t == 0 then "dir/locked.bin" else "dir/ok.txt",
    digestOf := fun _ => "77aabbcc" }

/-- Splitting a sum over the workers at one updated index: the new total
plus the old contribution of w equals the old total plus the new
contribution of w. -/
theorem sum_comp_update {M : Type} [AddCommMonoid M] (h : Wpc → M) (g : Nat → Wpc)
    {W w : Nat} (hw : w < W) (v : Wpc) :
    (∑ x ∈ Finset.range W, h (Function.update g w v x)) + h (g w)
      = (∑ x ∈ Finset.range W, h (g x)) + h v := by
  have hmem : w ∈ Finset.range W := Finset.mem_range.2 hw
  have e1 : ∀ x, h (Function.update g w v x) = Function.update (fun y => h (g y)) w (h v) x := by
    intro x
    by_cases hx : x = w <;> simp [Function.update, hx]
  rw [Finset.sum_congr rfl fun x _ => e1 x, Finset.sum_update_of_mem hmem,
      ← Finset.add_sum_erase _ (fun y => h (g y)) hmem, Finset.erase_eq]
  abel

/-- The counter invariant survives a pc change whose pending contribution
is unchanged. -/
theorem cnt_preserved {c : PoolCfg} {s : St} (hI : Inv c s) {w : Nat} (hw : w < c.W)
    (v : Wpc) (hcontrib : pendIncPc c v = pendIncPc c (s.wpc w)) :
    s.counter + (∑ x ∈ Finset.range c.W, pendIncPc c (Function.update s.wpc w v x))
      = (s.log.filter fun t => c.openable t).length := by
  have key := sum_comp_update (pendIncPc c) s.wpc hw v
  rw [hcontrib] at key
  have hc := hI.cnt
  dsimp only [pendInc] at hc
  omega

/-- The result-sink invariant survives a pc change whose pending entry is
unchanged. -/
theorem res_preserved {c : PoolCfg} {s : St} (hI : Inv c s) {w : Nat} (hw : w < c.W)
    (v : Wpc) (hcontrib : pendAppPc c v = pendAppPc c (s.wpc w)) :
    (s.results : Multiset (String × String))
        + (∑ x ∈ Finset.range c.W, pendAppPc c (Function.update s.wpc w v x))
      = ((s.log.filter fun t => c.openable t).map (entryOf c) : Multiset (String × String)) := by
  have key := sum_comp_update (pendAppPc c) s.wpc hw v
  rw [hcontrib] at key
  have h2 := add_right_cancel key
  rw [h2]
  have hr := hI.res
  dsimp only [pendApp] at hr
  exact hr

/-- The queue-lock invariant survives a pc change of a worker not holding
queue_mutex. -/
theorem qlock_preserved {c : PoolCfg} {s : St} (hI : Inv c s) {w : Nat} (v : Wpc)
    (hpcnot : s.wpc w ≠ Wpc.check) :
    ∀ u, s.qM = some u → u < c.W ∧ Function.update s.wpc w v u = Wpc.check := by
  intro u hu
  obtain ⟨h1, h2⟩ := hI.qlock u hu
  have hne : u ≠ w := fun he => hpcnot (he ▸ h2)
  exact ⟨h1, by rwa [Function.update_noteq hne]⟩

/-- The results-lock invariant survives a pc change of a worker not holding
results_mutex. -/
theorem rlock_preserved {c : PoolCfg} {s : St} (hI : Inv c s) {w : Nat} (v : Wpc)
    (hpcnot : ∀ t, s.wpc w ≠ Wpc.appendT t) :
    ∀ u, s.rM = some u → u < c.W ∧ ∃ t, Function.update s.wpc w v u = Wpc.appendT t := by
  intro u hu
  obtain ⟨h1, t0, h2⟩ := hI.rlock u hu
  have hne : u ≠ w := fun he => hpcnot t0 (he ▸ h2)
  exact ⟨h1, t0, by rwa [Function.update_noteq hne]⟩

/-- The cout-lock invariant survives a pc change of a worker not holding
cout_mutex. -/
theorem clock_preserved {c : PoolCfg} {s : St} (hI : Inv c s) {w : Nat} (v : Wpc)
    (hpcnot : ∀ t, s.wpc w ≠ Wpc.renderT t) :
    ∀ u, s.cM = some u → u < c.W ∧ ∃ t, Function.update s.wpc w v u = Wpc.renderT t := by
  intro u hu
  obtain ⟨h1, t0, h2⟩ := hI.clock u hu
  have hne : u ≠ w := fun he => hpcnot t0 (he ▸ h2)
  exact ⟨h1, t0, by rwa [Function.update_noteq hne]⟩

/-- The worker-exit invariant survives a pc change that does not land on
doneW, with queue and stop flag untouched. -/
theorem doneQ_preserved {c : PoolCfg} {s : St} (hI : Inv c s) {w : Nat} (v : Wpc)
    (hv : v ≠ Wpc.doneW) :
    ∀ u, u < c.W → Function.update s.wpc w v u = Wpc.doneW →
      s.stopped = true ∧ s.queue = [] := by
  intro u hu hd
  by_cases he : u = w
  · subst he
    rw [Function.update_same] at hd
    exact absurd hd hv
  · rw [Function.update_noteq he] at hd
    exact hI.doneQ u hu hd

/-- No worker can take a step once the join loop has finished: its pc
would have to be doneW. -/
theorem repKill {c : PoolCfg} {s : St} (hI : Inv c s) {w : Nat} (hw : w < c.W)
    {p : Wpc} (hpc : s.wpc w = p) (hne : p ≠ Wpc.doneW)
    (hph : s.mph = Mph.reporting ∨ s.mph = Mph.finished) : False :=
  hne (hpc.symm.trans (hI.repDone hph w hw))

/-- The stop flag is still clear in the enqueue and pre-stop phases. -/
theorem stopped_false_of {c : PoolCfg} {s : St} (hI : Inv c s)
    (h1 : s.mph ≠ Mph.joining) (h2 : s.mph ≠ Mph.reporting) (h3 : s.mph ≠ Mph.finished) :
    s.stopped = false := by
  cases hstp : s.stopped
  · rfl
  · exfalso
    rcases hI.stopPh.mp hstp with h | h | h
    exacts [h1 h, h2 h, h3 h]

/-- The invariant holds initially. -/
theorem inv_init (c : PoolCfg) : Inv c (initSt c) := by
  have hz1 : pendIncPc c Wpc.acqQ = 0 := rfl
  have hz2 : pendAppPc c Wpc.acqQ = 0 := rfl
  refine ⟨?_, ?_, ?_, ?_, ?_, ?_, ?_, ?_, ?_⟩
  · simp [initSt, remOf]
  · simp [initSt, pendInc, hz1]
  · simp [initSt, pendApp, hz2]
  · intro v hv
    exact Option.noConfusion hv
  · intro v hv
    exact Option.noConfusion hv
  · intro v hv
    exact Option.noConfusion hv
  · constructor
    · intro h
      exact Bool.noConfusion h
    · intro h
      rcases h with h | h | h <;> exact Mph.noConfusion h
  · intro w hw hd
    exact Wpc.noConfusion hd
  · intro h
    rcases h with h | h <;> exact Mph.noConfusion h

/-- The invariant is preserved by every interleaving step. -/
theorem inv_step {c : PoolCfg} {s s2 : St} (hst : Step c s s2) (hI : Inv c s) : Inv c s2 := by
  cases hst with
  | enq t r hmph hq =>
    refine ⟨?_, hI.cnt, hI.res, ?_, hI.rlock, hI.clock, ?_, ?_, ?_⟩
    · have h0 := hI.conserve
      rw [hmph] at h0
      dsimp only [remOf] at h0
      show ((s.queue ++ [t] : List Nat) : Multiset Nat) + ((r : List Nat) : Multiset Nat)
          + (s.log : Multiset Nat) = ((List.range c.N : List Nat) : Multiset Nat)
      rw [← h0]
      congr 1
      rw [← Multiset.coe_add, add_assoc, Multiset.coe_add]
      rfl
    · intro v hv
      have hv2 : s.qM = some v := hv
      rw [hq] at hv2
      exact Option.noConfusion hv2
    · have hsf : s.stopped = false :=
        stopped_false_of hI (by rw [hmph]; intro h; exact Mph.noConfusion h)
          (by rw [hmph]; intro h; exact Mph.noConfusion h)
          (by rw [hmph]; intro h; exact Mph.noConfusion h)
      show s.stopped = true ↔
        (Mph.enq r = Mph.joining ∨ Mph.enq r = Mph.reporting ∨ Mph.enq r = Mph.finished)
      rw [hsf]
      simp
    · intro u hu hd
      have hd2 : s.wpc u = Wpc.doneW := hd
      have hsf : s.stopped = false :=
        stopped_false_of hI (by rw [hmph]; intro h; exact Mph.noConfusion h)
          (by rw [hmph]; intro h; exact Mph.noConfusion h)
          (by rw [hmph]; intro h; exact Mph.noConfusion h)
      have hstp := (hI.doneQ u hu hd2).1
      rw [hsf] at hstp
      exact Bool.noConfusion hstp
    · intro hph
      have hph2 : Mph.enq r = Mph.reporting ∨ Mph.enq r = Mph.finished := hph
      rcases hph2 with h | h <;> exact Mph.noConfusion h
  | enqFin hmph =>
    refine ⟨?_, hI.cnt, hI.res, hI.qlock, hI.rlock, hI.clock, ?_, ?_, ?_⟩
    · have h0 := hI.conserve
      rw [hmph] at h0
      exact h0
    · have hsf : s.stopped = false :=
        stopped_false_of hI (by rw [hmph]; intro h; exact Mph.noConfusion h)
          (by rw [hmph]; intro h; exact Mph.noConfusion h)
          (by rw [hmph]; intro h; exact Mph.noConfusion h)
      show s.stopped = true ↔
        (Mph.stopping = Mph.joining ∨ Mph.stopping = Mph.reporting ∨ Mph.stopping = Mph.finished)
      rw [hsf]
      simp
    · intro u hu hd
      have hd2 : s.wpc u = Wpc.doneW := hd
      have hsf : s.stopped = false :=
        stopped_false_of hI (by rw [hmph]; intro h; exact Mph.noConfusion h)
          (by rw [hmph]; intro h; exact Mph.noConfusion h)
          (by rw [hmph]; intro h; exact Mph.noConfusion h)
      have hstp := (hI.doneQ u hu hd2).1
      rw [hsf] at hstp
      exact Bool.noConfusion hstp
    · intro hph
      have hph2 : Mph.stopping = Mph.reporting ∨ Mph.stopping = Mph.finished := hph
      rcases hph2 with h | h <;> exact Mph.noConfusion h
  | setStop hmph hq =>
    refine ⟨?_, hI.cnt, hI.res, ?_, hI.rlock, hI.clock, ?_, ?_, ?_⟩
    · have h0 := hI.conserve
      rw [hmph] at h0
      exact h0
    · intro v hv
      have hv2 : s.qM = some v := hv
      rw [hq] at hv2
      exact Option.noConfusion hv2
    · show true = true ↔
        (Mph.joining = Mph.joining ∨ Mph.joining = Mph.reporting ∨ Mph.joining = Mph.finished)
      simp
    · intro u hu hd
      have hd2 : s.wpc u = Wpc.doneW := hd
      have hsf : s.stopped = false :=
        stopped_false_of hI (by rw [hmph]; intro h; exact Mph.noConfusion h)
          (by rw [hmph]; intro h; exact Mph.noConfusion h)
          (by rw [hmph]; intro h; exact Mph.noConfusion h)
      have hstp := (hI.doneQ u hu hd2).1
      rw [hsf] at hstp
      exact Bool.noConfusion hstp
    · intro hph
      have hph2 : Mph.joining = Mph.reporting ∨ Mph.joining = Mph.finished := hph
      rcases hph2 with h | h <;> exact Mph.noConfusion h
  | joinFin hmph hall =>
    refine ⟨?_, hI.cnt, hI.res, hI.qlock, hI.rlock, hI.clock, ?_, hI.doneQ, ?_⟩
    · have h0 := hI.conserve
      rw [hmph] at h0
      exact h0
    · have hst : s.stopped = true := hI.stopPh.mpr (Or.inl hmph)
      show s.stopped = true ↔
        (Mph.reporting = Mph.joining ∨ Mph.reporting = Mph.reporting ∨ Mph.reporting = Mph.finished)
      rw [hst]
      simp
    · intro _ u hu
      exact hall u hu
  | reportFin hmph =>
    refine ⟨?_, hI.cnt, hI.res, hI.qlock, hI.rlock, hI.clock, ?_, hI.doneQ, ?_⟩
    · have h0 := hI.conserve
      rw [hmph] at h0
      exact h0
    · have hst : s.stopped = true := hI.stopPh.mpr (Or.inr (Or.inl hmph))
      show s.stopped = true ↔
        (Mph.finished = Mph.joining ∨ Mph.finished = Mph.reporting ∨ Mph.finished = Mph.finished)
      rw [hst]
      simp
    · intro _ u hu
      exact hI.repDone (Or.inl hmph) u hu
  | wAcqQ w hw hpc hq =>
    refine ⟨hI.conserve, ?_, ?_, ?_, ?_, ?_, hI.stopPh, ?_, ?_⟩
    · exact cnt_preserved hI hw Wpc.check (by rw [hpc]; rfl)
    · exact res_preserved hI hw Wpc.check (by rw [hpc]; rfl)
    · intro v hv
      have hv2 : some w = some v := hv
      cases hv2
      exact ⟨hw, Function.update_same w Wpc.check s.wpc⟩
    · exact rlock_preserved hI Wpc.check
        (fun t h => by rw [hpc] at h; exact Wpc.noConfusion h)
    · exact clock_preserved hI Wpc.check
        (fun t h => by rw [hpc] at h; exact Wpc.noConfusion h)
    · exact doneQ_preserved hI Wpc.check (fun h => Wpc.noConfusion h)
    · intro hph u hu
      exact (repKill hI hw hpc (fun h => Wpc.noConfusion h) hph).elim
  | wExit w hw hpc hq hstp hqe =>
    refine ⟨hI.conserve, ?_, ?_, ?_, ?_, ?_, hI.stopPh, ?_, ?_⟩
    · exact cnt_preserved hI hw Wpc.doneW (by rw [hpc]; rfl)
    · exact res_preserved hI hw Wpc.doneW (by rw [hpc]; rfl)
    · intro v hv
      exact Option.noConfusion hv
    · exact rlock_preserved hI Wpc.doneW
        (fun t h => by rw [hpc] at h; exact Wpc.noConfusion h)
    · exact clock_preserved hI Wpc.doneW
        (fun t h => by rw [hpc] at h; exact Wpc.noConfusion h)
    · intro u hu hd
      exact ⟨hstp, hqe⟩
    · intro hph u hu
      exact (repKill hI hw hpc (fun h => Wpc.noConfusion h) hph).elim
  | wPop w t r hw hpc hq hqu =>
    refine ⟨?_, ?_, ?_, ?_, ?_, ?_, hI.stopPh, ?_, ?_⟩
    · have h0 := hI.conserve
      rw [hqu] at h0
      show (r : Multiset Nat) + ((remOf s.mph : List Nat) : Multiset Nat)
          + ((s.log ++ [t] : List Nat) : Multiset Nat)
          = ((List.range c.N : List Nat) : Multiset Nat)
      rw [← h0]
      simp only [Multiset.coe_add]
      apply Multiset.coe_eq_coe.mpr
      have he : r ++ remOf s.mph ++ (s.log ++ [t]) = (r ++ remOf s.mph ++ s.log) ++ [t] := by
        rw [List.append_assoc (r ++ remOf s.mph)]
      rw [he]
      exact List.perm_append_singleton t (r ++ remOf s.mph ++ s.log)
    · have key := sum_comp_update (pendIncPc c) s.wpc hw (Wpc.openT t)
      rw [hpc] at key
      have key2 : (∑ x ∈ Finset.range c.W, pendIncPc c (Function.update s.wpc w (Wpc.openT t) x)) + 0
          = (∑ x ∈ Finset.range c.W, pendIncPc c (s.wpc x)) + (if c.openable t then 1 else 0) := key
      have hc := hI.cnt
      dsimp only [pendInc] at hc
      show s.counter
          + (∑ x ∈ Finset.range c.W, pendIncPc c (Function.update s.wpc w (Wpc.openT t) x))
          = ((s.log ++ [t]).filter fun x => c.openable x).length
      cases hop : c.openable t with
      | true =>
        rw [hop] at key2
        simp only [if_true, add_zero] at key2
        have hlen : ((s.log ++ [t]).filter fun x => c.openable x).length
            = (s.log.filter fun x => c.openable x).length + 1 := by
          simp [List.filter_append, hop]
        omega
      | false =>
        rw [hop] at key2
        simp at key2
        have hlen : ((s.log ++ [t]).filter fun x => c.openable x).length
            = (s.log.filter fun x => c.openable x).length := by
          simp [List.filter_append, hop]
        omega
    · have key := sum_comp_update (pendAppPc c) s.wpc hw (Wpc.openT t)
      rw [hpc] at key
      have key2 : (∑ x ∈ Finset.range c.W, pendAppPc c (Function.update s.wpc w (Wpc.openT t) x))
            + (0 : Multiset (String × String))
          = (∑ x ∈ Finset.range c.W, pendAppPc c (s.wpc x))
              + (if c.openable t then ({entryOf c t} : Multiset (String × String)) else 0) := key
      have hr0 := hI.res
      dsimp only [pendApp] at hr0
      show (s.results : Multiset (String × String))
          + (∑ x ∈ Finset.range c.W, pendAppPc c (Function.update s.wpc w (Wpc.openT t) x))
          = (((s.log ++ [t]).filter fun x => c.openable x).map (entryOf c)
              : Multiset (String × String))
      cases hop : c.openable t with
      | true =>
        rw [hop] at key2
        simp only [if_true, add_zero] at key2
        have hmap : ((s.log ++ [t]).filter fun x => c.openable x).map (entryOf c)
            = (s.log.filter fun x => c.openable x).map (entryOf c) ++ [entryOf c t] := by
          simp [List.filter_append, hop]
        rw [hmap, ← Multiset.coe_add, Multiset.coe_singleton, key2]
        calc (s.results : Multiset (String × String))
              + ((∑ x ∈ Finset.range c.W, pendAppPc c (s.wpc x)) + {entryOf c t})
            = ((s.results : Multiset (String × String))
                + (∑ x ∈ Finset.range c.W, pendAppPc c (s.wpc x))) + {entryOf c t} := by abel
          _ = ((s.log.filter fun x => c.openable x).map (entryOf c)
                : Multiset (String × String)) + {entryOf c t} := by rw [hr0]
      | false =>
        rw [hop] at key2
        simp at key2
        have hmap : ((s.log ++ [t]).filter fun x => c.openable x).map (entryOf c)
            = (s.log.filter fun x => c.openable x).map (entryOf c) := by
          simp [List.filter_append, hop]
        rw [hmap, key2]
        exact hr0
    · intro v hv
      exact Option.noConfusion hv
    · exact rlock_preserved hI (Wpc.openT t)
        (fun t0 h => by rw [hpc] at h; exact Wpc.noConfusion h)
    · exact clock_preserved hI (Wpc.openT t)
        (fun t0 h => by rw [hpc] at h; exact Wpc.noConfusion h)
    · intro u hu hd
      have hd2 : Function.update s.wpc w (Wpc.openT t) u = Wpc.doneW := hd
      by_cases he : u = w
      · subst he
        rw [Function.update_same] at hd2
        exact Wpc.noConfusion hd2
      · rw [Function.update_noteq he] at hd2
        have h2 := (hI.doneQ u hu hd2).2
        rw [hqu] at h2
        exact List.noConfusion h2
    · intro hph u hu
      exact (repKill hI hw hpc (fun h => Wpc.noConfusion h) hph).elim
  | wRewait w hw hpc hq hstp hqe =>
    refine ⟨hI.conserve, ?_, ?_, ?_, ?_, ?_, hI.stopPh, ?_, ?_⟩
    · exact cnt_preserved hI hw Wpc.acqQ (by rw [hpc]; rfl)
    · exact res_preserved hI hw Wpc.acqQ (by rw [hpc]; rfl)
    · intro v hv
      exact Option.noConfusion hv
    · exact rlock_preserved hI Wpc.acqQ
        (fun t h => by rw [hpc] at h; exact Wpc.noConfusion h)
    · exact clock_preserved hI Wpc.acqQ
        (fun t h => by rw [hpc] at h; exact Wpc.noConfusion h)
    · exact doneQ_preserved hI Wpc.acqQ (fun h => Wpc.noConfusion h)
    · intro hph u hu
      exact (repKill hI hw hpc (fun h => Wpc.noConfusion h) hph).elim
  | wOpenFail w t hw hpc hop =>
    refine ⟨hI.conserve, ?_, ?_, ?_, ?_, ?_, hI.stopPh, ?_, ?_⟩
    · refine cnt_preserved hI hw Wpc.acqQ ?_
      rw [hpc]
      show (0 : Nat) = if c.openable t then 1 else 0
      rw [hop]
      rfl
    · refine res_preserved hI hw Wpc.acqQ ?_
      rw [hpc]
      show (0 : Multiset (String × String)) = if c.openable t then {entryOf c t} else 0
      rw [hop]
      rfl
    · exact qlock_preserved hI Wpc.acqQ (by rw [hpc]; intro h; exact Wpc.noConfusion h)
    · exact rlock_preserved hI Wpc.acqQ
        (fun t0 h => by rw [hpc] at h; exact Wpc.noConfusion h)
    · exact clock_preserved hI Wpc.acqQ
        (fun t0 h => by rw [hpc] at h; exact Wpc.noConfusion h)
    · exact doneQ_preserved hI Wpc.acqQ (fun h => Wpc.noConfusion h)
    · intro hph u hu
      exact (repKill hI hw hpc (fun h => Wpc.noConfusion h) hph).elim
  | wOpenOk w t hw hpc hop =>
    refine ⟨hI.conserve, ?_, ?_, ?_, ?_, ?_, hI.stopPh, ?_, ?_⟩
    · refine cnt_preserved hI hw (Wpc.hashT t) ?_
      rw [hpc]
      show (1 : Nat) = if c.openable t then 1 else 0
      rw [hop]
      rfl
    · refine res_preserved hI hw (Wpc.hashT t) ?_
      rw [hpc]
      show ({entryOf c t} : Multiset (String × String)) = if c.openable t then {entryOf c t} else 0
      rw [hop]
      rfl
    · exact qlock_preserved hI (Wpc.hashT t) (by rw [hpc]; intro h; exact Wpc.noConfusion h)
    · exact rlock_preserved hI (Wpc.hashT t)
        (fun t0 h => by rw [hpc] at h; exact Wpc.noConfusion h)
    · exact clock_preserved hI (Wpc.hashT t)
        (fun t0 h => by rw [hpc] at h; exact Wpc.noConfusion h)
    · exact doneQ_preserved hI (Wpc.hashT t) (fun h => Wpc.noConfusion h)
    · intro hph u hu
      exact (repKill hI hw hpc (fun h => Wpc.noConfusion h) hph).elim
  | wHash w t hw hpc =>
    refine ⟨hI.conserve, ?_, ?_, ?_, ?_, ?_, hI.stopPh, ?_, ?_⟩
    · exact cnt_preserved hI hw (Wpc.acqR t) (by rw [hpc]; rfl)
    · exact res_preserved hI hw (Wpc.acqR t) (by rw [hpc]; rfl)
    · exact qlock_preserved hI (Wpc.acqR t) (by rw [hpc]; intro h; exact Wpc.noConfusion h)
    · exact rlock_preserved hI (Wpc.acqR t)
        (fun t0 h => by rw [hpc] at h; exact Wpc.noConfusion h)
    · exact clock_preserved hI (Wpc.acqR t)
        (fun t0 h => by rw [hpc] at h; exact Wpc.noConfusion h)
    · exact doneQ_preserved hI (Wpc.acqR t) (fun h => Wpc.noConfusion h)
    · intro hph u hu
      exact (repKill hI hw hpc (fun h => Wpc.noConfusion h) hph).elim
  | wAcqRes w t hw hpc hrm =>
    refine ⟨hI.conserve, ?_, ?_, ?_, ?_, ?_, hI.stopPh, ?_, ?_⟩
    · exact cnt_preserved hI hw (Wpc.appendT t) (by rw [hpc]; rfl)
    · exact res_preserved hI hw (Wpc.appendT t) (by rw [hpc]; rfl)
    · exact qlock_preserved hI (Wpc.appendT t) (by rw [hpc]; intro h; exact Wpc.noConfusion h)
    · intro v hv
      have hv2 : some w = some v := hv
      cases hv2
      exact ⟨hw, t, Function.update_same w (Wpc.appendT t) s.wpc⟩
    · exact clock_preserved hI (Wpc.appendT t)
        (fun t0 h => by rw [hpc] at h; exact Wpc.noConfusion h)
    · exact doneQ_preserved hI (Wpc.appendT t) (fun h => Wpc.noConfusion h)
    · intro hph u hu
      exact (repKill hI hw hpc (fun h => Wpc.noConfusion h) hph).elim
  | wAppend w t hw hpc hrm =>
    refine ⟨hI.conserve, ?_, ?_, ?_, ?_, ?_, hI.stopPh, ?_, ?_⟩
    · exact cnt_preserved hI hw (Wpc.incrT t) (by rw [hpc]; rfl)
    · have key := sum_comp_update (pendAppPc c) s.wpc hw (Wpc.incrT t)
      rw [hpc] at key
      have key2 : (∑ x ∈ Finset.range c.W, pendAppPc c (Function.update s.wpc w (Wpc.incrT t) x))
            + ({entryOf c t} : Multiset (String × String))
          = (∑ x ∈ Finset.range c.W, pendAppPc c (s.wpc x)) + 0 := key
      rw [add_zero] at key2
      have hr0 := hI.res
      dsimp only [pendApp] at hr0
      show ((s.results ++ [entryOf c t] : List (String × String)) : Multiset (String × String))
          + (∑ x ∈ Finset.range c.W, pendAppPc c (Function.update s.wpc w (Wpc.incrT t) x))
          = ((s.log.filter fun x => c.openable x).map (entryOf c) : Multiset (String × String))
      rw [← Multiset.coe_add, Multiset.coe_singleton]
      calc (s.results : Multiset (String × String)) + {entryOf c t}
            + (∑ x ∈ Finset.range c.W, pendAppPc c (Function.update s.wpc w (Wpc.incrT t) x))
          = (s.results : Multiset (String × String))
              + ((∑ x ∈ Finset.range c.W, pendAppPc c (Function.update s.wpc w (Wpc.incrT t) x))
                  + {entryOf c t}) := by abel
        _ = (s.results : Multiset (String × String))
              + (∑ x ∈ Finset.range c.W, pendAppPc c (s.wpc x)) := by rw [key2]
        _ = ((s.log.filter fun x => c.openable x).map (entryOf c)
              : Multiset (String × String)) := hr0
    · exact qlock_preserved hI (Wpc.incrT t) (by rw [hpc]; intro h; exact Wpc.noConfusion h)
    · intro v hv
      exact Option.noConfusion hv
    · exact clock_preserved hI (Wpc.incrT t)
        (fun t0 h => by rw [hpc] at h; exact Wpc.noConfusion h)
    · exact doneQ_preserved hI (Wpc.incrT t) (fun h => Wpc.noConfusion h)
    · intro hph u hu
      exact (repKill hI hw hpc (fun h => Wpc.noConfusion h) hph).elim
  | wIncr w t hw hpc =>
    refine ⟨hI.conserve, ?_, ?_, ?_, ?_, ?_, hI.stopPh, ?_, ?_⟩
    · have key := sum_comp_update (pendIncPc c) s.wpc hw (Wpc.acqC t)
      rw [hpc] at key
      have key2 : (∑ x ∈ Finset.range c.W, pendIncPc c (Function.update s.wpc w (Wpc.acqC t) x)) + 1
          = (∑ x ∈ Finset.range c.W, pendIncPc c (s.wpc x)) + 0 := key
      have hc := hI.cnt
      dsimp only [pendInc] at hc
      show s.counter + 1
          + (∑ x ∈ Finset.range c.W, pendIncPc c (Function.update s.wpc w (Wpc.acqC t) x))
          = (s.log.filter fun x => c.openable x).length
      omega
    · exact res_preserved hI hw (Wpc.acqC t) (by rw [hpc]; rfl)
    · exact qlock_preserved hI (Wpc.acqC t) (by rw [hpc]; intro h; exact Wpc.noConfusion h)
    · exact rlock_preserved hI (Wpc.acqC t)
        (fun t0 h => by rw [hpc] at h; exact Wpc.noConfusion h)
    · exact clock_preserved hI (Wpc.acqC t)
        (fun t0 h => by rw [hpc] at h; exact Wpc.noConfusion h)
    · exact doneQ_preserved hI (Wpc.acqC t) (fun h => Wpc.noConfusion h)
    · intro hph u hu
      exact (repKill hI hw hpc (fun h => Wpc.noConfusion h) hph).elim
  | wAcqCout w t hw hpc hcm =>
    refine ⟨hI.conserve, ?_, ?_, ?_, ?_, ?_, hI.stopPh, ?_, ?_⟩
    · exact cnt_preserved hI hw (Wpc.renderT t) (by rw [hpc]; rfl)
    · exact res_preserved hI hw (Wpc.renderT t) (by rw [hpc]; rfl)
    · exact qlock_preserved hI (Wpc.renderT t) (by rw [hpc]; intro h; exact Wpc.noConfusion h)
    · exact rlock_preserved hI (Wpc.renderT t)
        (fun t0 h => by rw [hpc] at h; exact Wpc.noConfusion h)
    · intro v hv
      have hv2 : some w = some v := hv
      cases hv2
      exact ⟨hw, t, Function.update_same w (Wpc.renderT t) s.wpc⟩
    · exact doneQ_preserved hI (Wpc.renderT t) (fun h => Wpc.noConfusion h)
    · intro hph u hu
      exact (repKill hI hw hpc (fun h => Wpc.noConfusion h) hph).elim
  | wRender w t hw hpc hcm =>
    refine ⟨hI.conserve, ?_, ?_, ?_, ?_, ?_, hI.stopPh, ?_, ?_⟩
    · exact cnt_preserved hI hw Wpc.acqQ (by rw [hpc]; rfl)
    · exact res_preserved hI hw Wpc.acqQ (by rw [hpc]; rfl)
    · exact qlock_preserved hI Wpc.acqQ (by rw [hpc]; intro h; exact Wpc.noConfusion h)
    · exact rlock_preserved hI Wpc.acqQ
        (fun t0 h => by rw [hpc] at h; exact Wpc.noConfusion h)
    · intro v hv
      exact Option.noConfusion hv
    · exact doneQ_preserved hI Wpc.acqQ (fun h => Wpc.noConfusion h)
    · intro hph u hu
      exact (repKill hI hw hpc (fun h => Wpc.noConfusion h) hph).elim

/-- Every reachable state satisfies the invariant. -/
theorem inv_reach {c : PoolCfg} {s : St} (h : Reach c s) : Inv c s := by
  induction h with
  | init => exact inv_init c
  | next _ hst ih => exact inv_step hst ih

/-- Final-state facts once the join loop has returned, for a pool with at
least one worker: every worker terminated, the queue is drained, the pop
log is a permutation of all N tasks, the Result Sink holds exactly the
entries of the openable tasks, and the Progress Counter equals the number
of openable tasks. -/
theorem final_state {c : PoolCfg} {s : St} (h : Reach c s) (hW : 1 ≤ c.W)
    (hph : s.mph = Mph.reporting ∨ s.mph = Mph.finished) :
    (∀ w, w < c.W → s.wpc w = Wpc.doneW) ∧ s.queue = [] ∧
    s.log.Perm (List.range c.N) ∧
    s.results.Perm (((List.range c.N).filter fun t => c.openable t).map (entryOf c)) ∧
    s.counter = ((List.range c.N).filter fun t => c.openable t).length := by
  have hI := inv_reach h
  have hall := hI.repDone hph
  have hq0 : s.queue = [] := (hI.doneQ 0 hW (hall 0 hW)).2
  have hrem : remOf s.mph = [] := by
    rcases hph with h1 | h1 <;> rw [h1] <;> rfl
  have hcons := hI.conserve
  rw [hq0, hrem] at hcons
  have hlog : (s.log : Multiset Nat) = (List.range c.N : Multiset Nat) := by
    simpa using hcons
  have hperm : s.log.Perm (List.range c.N) := Multiset.coe_eq_coe.1 hlog
  have hpend0 : pendInc c s = 0 := by
    show (∑ w ∈ Finset.range c.W, pendIncPc c (s.wpc w)) = 0
    refine Finset.sum_eq_zero ?_
    intro x hx
    rw [hall x (Finset.mem_range.1 hx)]
    rfl
  have happ0 : pendApp c s = 0 := by
    show (∑ w ∈ Finset.range c.W, pendAppPc c (s.wpc w)) = 0
    refine Finset.sum_eq_zero ?_
    intro x hx
    rw [hall x (Finset.mem_range.1 hx)]
    rfl
  have hcnt := hI.cnt
  rw [hpend0, add_zero] at hcnt
  have hres := hI.res
  rw [happ0, add_zero] at hres
  have hrperm : s.results.Perm ((s.log.filter fun t => c.openable t).map (entryOf c)) :=
    Multiset.coe_eq_coe.1 hres
  refine ⟨hall, hq0, hperm, ?_, ?_⟩
  · exact hrperm.trans ((hperm.filter _).map _)
  · exact hcnt.trans ((hperm.filter _).length_eq)

/-- A complete execution of cfg1: one worker, one openable file, run to
the reporting phase. -/
theorem reach_cfg1_done :
    ∃ s : St, Reach cfg1 s ∧ s.mph = Mph.reporting ∧
      s.results = [("dir/a.txt", "9f86d081")] ∧ s.counter = 1 ∧ s.queue = [] ∧
      s.log = [0] ∧ (∀ w, w < cfg1.W → s.wpc w = Wpc.doneW) := by
  have r0 : Reach cfg1 (initSt cfg1) := Reach.init
  have r1 := r0.next (Step.enq _ 0 [] rfl rfl)
  have r2 := r1.next (Step.enqFin _ rfl)
  have r3 := r2.next (Step.setStop _ rfl rfl)
  have r4 := r3.next (Step.wAcqQ _ 0 (by decide) rfl rfl)
  have r5 := r4.next (Step.wPop _ 0 0 [] (by decide) (by decide) rfl rfl)
  have r6 := r5.next (Step.wOpenOk _ 0 0 (by decide) (by decide) rfl)
  have r7 := r6.next (Step.wHash _ 0 0 (by decide) (by decide))
  have r8 := r7.next (Step.wAcqRes _ 0 0 (by decide) (by decide) rfl)
  have r9 := r8.next (Step.wAppend _ 0 0 (by decide) (by decide) rfl)
  have r10 := r9.next (Step.wIncr _ 0 0 (by decide) (by decide))
  have r11 := r10.next (Step.wAcqCout _ 0 0 (by decide) (by decide) rfl)
  have r12 := r11.next (Step.wRender _ 0 0 (by decide) (by decide) rfl)
  have r13 := r12.next (Step.wAcqQ _ 0 (by decide) (by decide) rfl)
  have r14 := r13.next (Step.wExit _ 0 (by decide) (by decide) rfl rfl rfl)
  have r15 := r14.next (Step.joinFin _ rfl (by decide))
  exact ⟨_, r15, rfl, rfl, rfl, rfl, rfl, by decide⟩

/-- A complete execution of cfg2: one worker, one unopenable file; the
task is popped, the open fails, nothing is recorded. -/
theorem reach_cfg2_done :
    ∃ s : St, Reach cfg2 s ∧ (s.mph = Mph.reporting ∨ s.mph = Mph.finished) ∧
      s.results = [] ∧ s.counter = 0 ∧ s.log = [0] := by
  have r0 : Reach cfg2 (initSt cfg2) := Reach.init
  have r1 := r0.next (Step.enq _ 0 [] rfl rfl)
  have r2 := r1.next (Step.enqFin _ rfl)
  have r3 := r2.next (Step.setStop _ rfl rfl)
  have r4 := r3.next (Step.wAcqQ _ 0 (by decide) rfl rfl)
  have r5 := r4.next (Step.wPop _ 0 0 [] (by decide) (by decide) rfl rfl)
  have r6 := r5.next (Step.wOpenFail _ 0 0 (by decide) (by decide) rfl)
  have r7 := r6.next (Step.wAcqQ _ 0 (by decide) (by decide) rfl)
  have r8 := r7.next (Step.wExit _ 0 (by decide) (by decide) rfl rfl rfl)
  have r9 := r8.next (Step.joinFin _ rfl (by decide))
  exact ⟨_, r9, Or.inl rfl, rfl, rfl, rfl⟩

/-- A partial execution of cfg1 caught while the single worker is inside
the hashing step. -/
theorem reach_cfg1_hashing :
    ∃ s : St, Reach cfg1 s ∧ s.wpc 0 = Wpc.hashT 0 := by
  have r0 : Reach cfg1 (initSt cfg1) := Reach.init
  have r1 := r0.next (Step.enq _ 0 [] rfl rfl)
  have r2 := r1.next (Step.wAcqQ _ 0 (by decide) rfl rfl)
  have r3 := r2.next (Step.wPop _ 0 0 [] (by decide) (by decide) rfl rfl)
  have r4 := r3.next (Step.wOpenOk _ 0 0 (by decide) (by decide) rfl)
  exact ⟨_, r4, by decide⟩

/-- With zero workers every reachable state still has empty results, zero
counter and an untouched log: no task is ever popped or executed. -/
theorem zero_worker_frozen {c : PoolCfg} (hW : c.W = 0) {s : St} (h : Reach c s) :
    s.results = [] ∧ s.counter = 0 ∧ s.log = [] := by
  induction h with
  | init => exact ⟨rfl, rfl, rfl⟩
  | next hr hst ih =>
    cases hst with
    | enq t r hmph hq => exact ih
    | enqFin hmph => exact ih
    | setStop hmph hq => exact ih
    | joinFin hmph hall => exact ih
    | reportFin hmph => exact ih
    | wAcqQ w hw hpc hq => exact absurd hw (by omega)
    | wExit w hw hpc hq hstp hqe => exact absurd hw (by omega)
    | wPop w t r hw hpc hq hqu => exact absurd hw (by omega)
    | wRewait w hw hpc hq hstp hqe => exact absurd hw (by omega)
    | wOpenFail w t hw hpc hop => exact absurd hw (by omega)
    | wOpenOk w t hw hpc hop => exact absurd hw (by omega)
    | wHash w t hw hpc => exact absurd hw (by omega)
    | wAcqRes w t hw hpc hrm => exact absurd hw (by omega)
    | wAppend w t hw hpc hrm => exact absurd hw (by omega)
    | wIncr w t hw hpc => exact absurd hw (by omega)
    | wAcqCout w t hw hpc hcm => exact absurd hw (by omega)
    | wRender w t hw hpc hcm => exact absurd hw (by omega)

/-- With zero workers the main thread can always run to completion: it
enqueues the rest of its tasks, sets stop, joins nothing and reports,
leaving the queue holding everything it enqueued. -/
theorem zero_worker_drain {c : PoolCfg} (hW : c.W = 0) :
    ∀ (r : List Nat) (s : St), Reach c s → s.mph = Mph.enq r → s.qM = none →
      ∃ s2 : St, Reach c s2 ∧ s2.mph = Mph.finished ∧ s2.queue = s.queue ++ r ∧
        s2.results = s.results ∧ s2.counter = s.counter ∧ s2.log = s.log := by
  intro r
  induction r with
  | nil =>
    intro s h hmph hq
    have h1 := h.next (Step.enqFin s hmph)
    have h2 := h1.next (Step.setStop _ rfl hq)
    have h3 := h2.next (Step.joinFin _ rfl (fun w hw => absurd hw (by omega)))
    have h4 := h3.next (Step.reportFin _ rfl)
    exact ⟨_, h4, rfl, (List.append_nil s.queue).symm, rfl, rfl, rfl⟩
  | cons t r ih =>
    intro s h hmph hq
    have h1 := h.next (Step.enq s t r hmph hq)
    obtain ⟨s2, h2, hfin, hque, hres, hcnt, hlog⟩ := ih _ h1 rfl hq
    refine ⟨s2, h2, hfin, ?_, hres, hcnt, hlog⟩
    rw [hque, List.append_assoc]
    rfl

/-- Claim C1 (amended): for any pool with at least one worker, after
shutdown and join the Result Sink holds exactly one entry per task whose
file could be opened — a permutation with no duplicates and no omissions
of those entries — and exactly N entries when every file opens. -/
theorem resultSink_exactly_once {c : PoolCfg} {s : St} (h : Reach c s) (hW : 1 ≤ c.W)
    (hph : s.mph = Mph.reporting ∨ s.mph = Mph.finished) :
    s.results.Perm (((List.range c.N).filter fun t => c.openable t).map (entryOf c)) ∧
    ((∀ t, c.openable t = true) → s.results.length = c.N) := by
  obtain ⟨-, -, -, hres, -⟩ := final_state h hW hph
  refine ⟨hres, ?_⟩
  intro hop
  have hfilter : (List.range c.N).filter (fun t => c.openable t) = List.range c.N :=
    List.filter_eq_self.2 fun a _ => hop a
  rw [hres.length_eq, List.length_map, hfilter, List.length_range]

/-- Claim C1 counterexample: a pool with one worker and one submitted task
whose file cannot be opened reaches the joined state with 0 Result
Entries, not N = 1. -/
theorem resultSink_counterexample :
    ∃ s : St, Reach cfg2 s ∧ (s.mph = Mph.reporting ∨ s.mph = Mph.finished) ∧
      s.results.length ≠ cfg2.N := by
  obtain ⟨s, hs, hph, hres, -, -⟩ := reach_cfg2_done
  refine ⟨s, hs, hph, ?_⟩
  rw [hres]
  decide

/-- Claim C1 witness: the amended theorem applied to the concrete finished
run of cfg1. -/
theorem resultSink_exactly_once_witness :
    ∃ s : St, Reach cfg1 s ∧
      (s.results.Perm (((List.range cfg1.N).filter fun t => cfg1.openable t).map (entryOf cfg1)) ∧
        ((∀ t, cfg1.openable t = true) → s.results.length = cfg1.N)) := by
  obtain ⟨s, hs, hph, -, -, -, -, -⟩ := reach_cfg1_done
  exact ⟨s, hs, resultSink_exactly_once hs (by decide) (Or.inl hph)⟩

/-- Claim C3 (amended): for any worker count at least 1, after shutdown
and join the Progress Counter equals the number of tasks whose file could
be opened — one increment per such task, no double counting, no lost
updates — and equals N when every file opens. -/
theorem counter_equals_openable {c : PoolCfg} {s : St} (h : Reach c s) (hW : 1 ≤ c.W)
    (hph : s.mph = Mph.reporting ∨ s.mph = Mph.finished) :
    s.counter = ((List.range c.N).filter fun t => c.openable t).length ∧
    ((∀ t, c.openable t = true) → s.counter = c.N) := by
  obtain ⟨-, -, -, -, hcnt⟩ := final_state h hW hph
  refine ⟨hcnt, ?_⟩
  intro hop
  have hfilter : (List.range c.N).filter (fun t => c.openable t) = List.range c.N :=
    List.filter_eq_self.2 fun a _ => hop a
  rw [hcnt, hfilter, List.length_range]

/-- Claim C3 counterexample: one worker, one task whose file cannot be
opened; the joined pool's Progress Counter is 0, not N = 1, because
process_file returns before the increment when the ifstream fails. -/
theorem counter_counterexample :
    ∃ s : St, Reach cfg2 s ∧ (s.mph = Mph.reporting ∨ s.mph = Mph.finished) ∧
      s.counter ≠ cfg2.N := by
  obtain ⟨s, hs, hph, -, hcnt, -⟩ := reach_cfg2_done
  refine ⟨s, hs, hph, ?_⟩
  rw [hcnt]
  decide

/-- Claim C3 witness: the amended theorem applied to the concrete finished
run of cfg1. -/
theorem counter_equals_openable_witness :
    ∃ s : St, Reach cfg1 s ∧
      (s.counter = ((List.range cfg1.N).filter fun t => cfg1.openable t).length ∧
        ((∀ t, cfg1.openable t = true) → s.counter = cfg1.N)) := by
  obtain ⟨s, hs, hph, -, -, -, -, -⟩ := reach_cfg1_done
  exact ⟨s, hs, counter_equals_openable hs (by decide) (Or.inl hph)⟩

/-- Claim C5: in every reachable state, a worker inside the hashing step
(opening the ifstream or running the digest) holds none of queue_mutex,
results_mutex or cout_mutex; and each of those mutexes, when held, is
held by a worker inside the corresponding metadata critical section
(queue check/pop, result append, progress render). -/
theorem no_lock_during_hash {c : PoolCfg} {s : St} (h : Reach c s) :
    (∀ w t, w < c.W → (s.wpc w = Wpc.openT t ∨ s.wpc w = Wpc.hashT t) →
      s.qM ≠ some w ∧ s.rM ≠ some w ∧ s.cM ≠ some w) ∧
    (∀ v, s.qM = some v → s.wpc v = Wpc.check) ∧
    (∀ v, s.rM = some v → ∃ t, s.wpc v = Wpc.appendT t) ∧
    (∀ v, s.cM = some v → ∃ t, s.wpc v = Wpc.renderT t) := by
  have hI := inv_reach h
  refine ⟨?_, fun v hv => (hI.qlock v hv).2, fun v hv => (hI.rlock v hv).2,
    fun v hv => (hI.clock v hv).2⟩
  intro w t hw hpc
  refine ⟨?_, ?_, ?_⟩
  · intro hq
    have h2 := (hI.qlock w hq).2
    rcases hpc with h1 | h1 <;> rw [h1] at h2 <;> exact Wpc.noConfusion h2
  · intro hq
    obtain ⟨-, t0, h2⟩ := hI.rlock w hq
    rcases hpc with h1 | h1 <;> rw [h1] at h2 <;> exact Wpc.noConfusion h2
  · intro hq
    obtain ⟨-, t0, h2⟩ := hI.clock w hq
    rcases hpc with h1 | h1 <;> rw [h1] at h2 <;> exact Wpc.noConfusion h2

/-- Claim C5 witness: the theorem applied to a concrete reachable state of
cfg1 whose worker is mid-hash. -/
theorem no_lock_during_hash_witness :
    ∃ s : St, Reach cfg1 s ∧ s.wpc 0 = Wpc.hashT 0 ∧
      (s.qM ≠ some 0 ∧ s.rM ≠ some 0 ∧ s.cM ≠ some 0) := by
  obtain ⟨s, hs, hpc⟩ := reach_cfg1_hashing
  exact ⟨s, hs, hpc, (no_lock_during_hash hs).1 0 0 (by decide) (Or.inr hpc)⟩

/-- Claim C6 (amended): for a pool with at least one worker, every task
enqueued before the stop flag completes before join returns — the queue is
drained, every task was popped exactly once, every worker terminated —
and, for any worker count, no worker ever exits while the queue still
holds tasks.  (With zero workers the join loop returns immediately and the
queue is never drained; see the zero-worker claim.) -/
theorem graceful_drain {c : PoolCfg} {s : St} (h : Reach c s) :
    (1 ≤ c.W → (s.mph = Mph.reporting ∨ s.mph = Mph.finished) →
      s.queue = [] ∧ s.log.Perm (List.range c.N) ∧ (∀ w, w < c.W → s.wpc w = Wpc.doneW)) ∧
    (∀ w, w < c.W → s.wpc w = Wpc.doneW → s.queue = []) := by
  constructor
  · intro hW hph
    obtain ⟨hall, hq, hlog, -, -⟩ := final_state h hW hph
    exact ⟨hq, hlog, hall⟩
  · intro w hw hd
    exact ((inv_reach h).doneQ w hw hd).2

/-- Claim C6 counterexample: with zero worker threads the destructor joins
nothing, so the pool reaches its final phase with both enqueued tasks
still sitting unprocessed in the queue. -/
theorem graceful_drain_counterexample :
    ∃ s : St, Reach cfg3 s ∧ s.mph = Mph.finished ∧ s.queue ≠ [] ∧ s.log = [] := by
  obtain ⟨s, hs, hfin, hque, -, -, hlog⟩ :=
    zero_worker_drain (c := cfg3) rfl (List.range 2) (initSt cfg3) Reach.init rfl rfl
  refine ⟨s, hs, hfin, ?_, hlog⟩
  rw [hque]
  decide

/-- Claim C6 witness: the amended theorem applied to the concrete finished
run of cfg1. -/
theorem graceful_drain_witness :
    ∃ s : St, Reach cfg1 s ∧ s.queue = [] ∧ s.log.Perm (List.range cfg1.N) ∧
      (∀ w, w < cfg1.W → s.wpc w = Wpc.doneW) := by
  obtain ⟨s, hs, hph, -, -, -, -, -⟩ := reach_cfg1_done
  obtain ⟨hq, hlog, hall⟩ := (graceful_drain hs).1 (by decide) (Or.inl hph)
  exact ⟨s, hs, hq, hlog, hall⟩

/-- Claim C8: in every reachable state in which main has entered the
report phase (it runs strictly after the pool destructor returns), every
worker thread has already terminated — no report line can be emitted with
a worker still running. -/
theorem report_after_join {c : PoolCfg} {s : St} (h : Reach c s)
    (hph : s.mph = Mph.reporting ∨ s.mph = Mph.finished) :
    ∀ w, w < c.W → s.wpc w = Wpc.doneW :=
  (inv_reach h).repDone hph

/-- Claim C8 witness: the theorem applied to the concrete reporting-phase
state of cfg1. -/
theorem report_after_join_witness :
    ∃ s : St, Reach cfg1 s ∧ s.mph = Mph.reporting ∧
      (∀ w, w < cfg1.W → s.wpc w = Wpc.doneW) := by
  obtain ⟨s, hs, hph, -, -, -, -, -⟩ := reach_cfg1_done
  exact ⟨s, hs, hph, report_after_join hs (Or.inl hph)⟩

/-- Claim C10: a ThreadPool constructed with zero threads launches no
workers, so no task is ever executed in any reachable state (results,
counter and pop log stay empty), yet the destructor still runs to
completion joining nothing, main reaches its final phase with every
enqueued task still in the queue and an empty report, and the process
exit status is 0.  Thread count 0 arises from an explicit "-j 0" (stoi
succeeds, 0 is stored) or a zero hardware-concurrency hint. -/
theorem zero_workers_pool (c : PoolCfg) (hW : c.W = 0) :
    (∀ s : St, Reach c s → s.results = [] ∧ s.counter = 0 ∧ s.log = []) ∧
    (∃ s : St, Reach c s ∧ s.mph = Mph.finished ∧ s.queue = List.range c.N ∧
      s.results = [] ∧ s.counter = 0) ∧
    (∀ hw : Nat, (parseArgsAux ["-j", "0"] (defaultOpts hw) false).threads = 0) ∧
    (parseArgsAux [] (defaultOpts 0) false).threads = 0 ∧
    (∀ files : List Dirent, exitCode (MainOut.run 0 files) = 0) := by
  refine ⟨fun s h => zero_worker_frozen hW h, ?_, fun hw => rfl, rfl, fun files => rfl⟩
  obtain ⟨s2, h2, hfin, hque, hres, hcnt, -⟩ :=
    zero_worker_drain hW (List.range c.N) (initSt c) Reach.init rfl rfl
  refine ⟨s2, h2, hfin, ?_, hres, hcnt⟩
  rw [hque]
  rfl

/-- Claim C10 witness: the theorem applied to the concrete zero-worker
configuration cfg3. -/
theorem zero_workers_pool_witness :
    (∃ s : St, Reach cfg3 s ∧ s.mph = Mph.finished ∧ s.queue = List.range cfg3.N ∧
      s.results = [] ∧ s.counter = 0) ∧
    (parseArgsAux ["-j", "0"] (defaultOpts 8) false).threads = 0 := by
  have h := zero_workers_pool cfg3 rfl
  exact ⟨h.2.1, h.2.2.1 8⟩

/-- Claim C2, the code evaluated at the failing input: in src/src/main.cpp
a task whose ifstream does not open makes process_file return at once —
no Result Entry with a failure marker is recorded and the counter is not
incremented — whereas the earlier get_file_hash variants return the
failure marker which the second main.cpp variant stores; the failed task
does not prevent the sibling task from recording its digest. -/
theorem process_file_drops_failures :
    processFile cfgMix 0 { results := [], counter := 0 } = { results := [], counter := 0 } ∧
    runSeq cfgMix [0, 1] = { results := [("dir/ok.txt", "77aabbcc")], counter := 1 } ∧
    getFileHash cfgMix 0 = "Error: Could not open file." ∧
    workerTaskV2 cfgMix 0 { results := [], counter := 0 }
      = { results := [("dir/locked.bin", "Error: Could not open file.")], counter := 1 } :=
  ⟨rfl, rfl, rfl, rfl⟩

/-- Claim C4 counterexample: src/src/main.cpp accepts "-j 0" without any
configuration error — stoi succeeds, 0 is stored in the unsigned thread
count, discovery proceeds and the exit status is 0; a negative value is
wrapped modulo 2^32 rather than rejected. -/
theorem thread_count_counterexample :
    mainRun 4 ["d", "-j", "0"] fs1 = MainOut.run 0 fs1.shallow ∧
    exitCode (mainRun 4 ["d", "-j", "0"] fs1) = 0 ∧
    (parseArgsAux ["-j", "-2"] (defaultOpts 4) false).threads = 4294967294 :=
  ⟨rfl, rfl, rfl⟩

/-- Claim C4 (amended): src/src/main.cpp parses the -j value inside
try/catch(...) with an empty handler, so an unparsable or out-of-range
value is silently ignored (the previous thread count is kept) and any
parsed value n, non-positive included, is stored as unsigned (n modulo
2^32); only the part_001 variant rejects — there an unparsable value or a
parsed non-positive value is a configuration error exit(1) before any
worker starts, while an out-of-int-range value escapes its
catch(invalid_argument) clause. -/
theorem thread_count_amended (hw : Nat) (v : String) (n : Int) :
    (stoi v = StoiRes.invalid → parse001 hw ["dir", "-j", v] = Out001.err) ∧
    (stoi v = StoiRes.ok n → n ≤ 0 → parse001 hw ["dir", "-j", v] = Out001.err) ∧
    (stoi v = StoiRes.range → parse001 hw ["dir", "-j", v] = Out001.crash) ∧
    (stoi v = StoiRes.invalid ∨ stoi v = StoiRes.range →
      (parseArgsAux ["-j", v] (defaultOpts hw) false).threads = hw) ∧
    (stoi v = StoiRes.ok n → (parseArgsAux ["-j", v] (defaultOpts hw) false).threads = toUnsigned n) := by
  refine ⟨?_, ?_, ?_, ?_, ?_⟩
  · intro h
    simp [parse001, jValue, h]
  · intro h hn
    simp [parse001, jValue, h, show ¬ (0 : Int) < n by omega]
  · intro h
    simp [parse001, jValue, h]
  · intro h
    rcases h with h | h <;> simp [parseArgsAux, h, defaultOpts]
  · intro h
    simp [parseArgsAux, h, defaultOpts]

/-- Claim C4 witness: the amended theorem applied to the concrete values
"abc" (unparsable), "0" (non-positive) and "-2" (negative, wrapped). -/
theorem thread_count_amended_witness :
    parse001 7 ["dir", "-j", "abc"] = Out001.err ∧
    parse001 7 ["dir", "-j", "0"] = Out001.err ∧
    (parseArgsAux ["-j", "abc"] (defaultOpts 7) false).threads = 7 ∧
    (parseArgsAux ["-j", "-2"] (defaultOpts 7) false).threads = toUnsigned (-2) :=
  ⟨(thread_count_amended 7 "abc" 0).1 (by decide),
    (thread_count_amended 7 "0" 0).2.1 (by decide) (by decide),
    (thread_count_amended 7 "abc" 0).2.2.2.1 (Or.inl (by decide)),
    (thread_count_amended 7 "-2" (-2)).2.2.2.2 (by decide)⟩

/-- Claim C7 (amended): src/src/main.cpp exits 1 exactly when no argument
is given, the root is not a directory, or the scan throws; with zero
matching files it returns 0 before any ThreadPool exists and records no
entry; an invalid -j is not among the fatal conditions. -/
theorem exit_status_characterization (hw : Nat) (args : List String) (fs : Fs) :
    (exitCode (mainRun hw args fs) = 1 ↔
      (args = [] ∨ fs.isDir = false ∨ fs.scanOk = false)) ∧
    (∀ d rest, args = d :: rest → fs.isDir = true → fs.scanOk = true →
      discovered (parseArgsAux rest (defaultOpts hw) false) fs = [] →
      mainRun hw args fs = MainOut.noFiles ∧ exitCode (mainRun hw args fs) = 0) := by
  constructor
  · cases args with
    | nil => simp [mainRun, exitCode]
    | cons d rest =>
      cases hd : fs.isDir with
      | false => simp [mainRun, exitCode, hd]
      | true =>
        cases hsc : fs.scanOk with
        | false => simp [mainRun, exitCode, hd, hsc]
        | true =>
          cases hE : (discovered (parseArgsAux rest (defaultOpts hw) false) fs).isEmpty with
          | true => simp [mainRun, exitCode, hd, hsc, hE]
          | false => simp [mainRun, exitCode, hd, hsc, hE]
  · intro d rest ha hd hsc hdisc
    subst ha
    constructor
    · simp [mainRun, hd, hsc, hdisc]
    · simp [mainRun, exitCode, hd, hsc, hdisc]

/-- Claim C7 counterexample: a valid directory with one file and the bad
thread count "-j abc" — the program proceeds with the default thread count
and exits 0, so exit 1 does not occur on a bad thread count. -/
theorem exit_status_counterexample :
    mainRun 4 ["d", "-j", "abc"] fs1 = MainOut.run 4 fs1.shallow ∧
    exitCode (mainRun 4 ["d", "-j", "abc"] fs1) = 0 :=
  ⟨rfl, rfl⟩

/-- Claim C7 witness: the amended theorem applied to a bad root and to an
empty directory. -/
theorem exit_status_witness :
    exitCode (mainRun 4 ["baddir"]
      { isDir := false, scanOk := true, shallow := [], deep := [] }) = 1 ∧
    (mainRun 4 ["d"] { fs1 with shallow := [] } = MainOut.noFiles ∧
      exitCode (mainRun 4 ["d"] { fs1 with shallow := [] }) = 0) := by
  constructor
  · exact (exit_status_characterization 4 ["baddir"]
      { isDir := false, scanOk := true, shallow := [], deep := [] }).1.mpr
      (Or.inr (Or.inl rfl))
  · exact (exit_status_characterization 4 ["d"] { fs1 with shallow := [] }).2
      "d" [] rfl rfl rfl (by decide)

/-- Consuming consecutive non-dash arguments after --filter appends them,
in order, to the filter set. -/
theorem parse_filter_chain (xs : List String) :
    ∀ (l : List String) (o : Opts), (∀ x ∈ xs, notDash x = true) →
      parseArgsAux (xs ++ l) o true = parseArgsAux l { o with filters := o.filters ++ xs } true := by
  induction xs with
  | nil =>
    intro l o h
    rw [List.nil_append, List.append_nil]
  | cons x xs ih =>
    intro l o h
    have hx : notDash x = true := h x (List.mem_cons_self x xs)
    have step : parseArgsAux (x :: (xs ++ l)) o true
        = parseArgsAux (xs ++ l) { o with filters := o.filters ++ [x] } true := by
      rw [parseArgsAux.eq_def]
      simp [hx]
    show parseArgsAux (x :: (xs ++ l)) o true = _
    rw [step, ih l _ (fun x2 hx2 => h x2 (List.mem_cons_of_mem x hx2)), List.append_assoc]
    rfl

/-- Claim C9 (amended): a directory entry is enqueued iff it is a regular
file and the filter set is empty or contains its extension string exactly
as spelled; when a filter set is present and does not contain the empty
string, an extensionless file is never enqueued (passing the literal
empty string as a --filter argument does insert it, because the first
character of an empty std::string reads as the null character, not a
dash); and an argument starting with a dash terminates the --filter list,
being handled as an ordinary option, instead of being added to it. -/
theorem filter_selection (filters : List String) (e : Dirent) (o : Opts)
    (xs ys : List String) (y : String) :
    (selected filters e = true ↔ (e.isReg = true ∧ (filters = [] ∨ e.ext ∈ filters))) ∧
    (filters ≠ [] → ¬ "" ∈ filters → e.ext = "" → selected filters e = false) ∧
    ((∀ x ∈ xs, notDash x = true) → notDash y = false →
      parseArgsAux ("--filter" :: (xs ++ y :: ys)) o false
        = parseArgsAux (y :: ys) { o with filters := o.filters ++ xs } false) := by
  have hiff : selected filters e = true ↔
      (e.isReg = true ∧ (filters = [] ∨ e.ext ∈ filters)) := by
    simp [selected, List.isEmpty_iff]
  refine ⟨hiff, ?_, ?_⟩
  · intro h1 h2 h3
    cases hsel : selected filters e with
    | false => rfl
    | true =>
      obtain ⟨-, h4⟩ := hiff.1 hsel
      rcases h4 with h4 | h4
      · exact absurd h4 h1
      · rw [h3] at h4
        exact absurd h4 h2
  · intro hall hy
    have h1 : parseArgsAux ("--filter" :: (xs ++ y :: ys)) o false
        = parseArgsAux (xs ++ y :: ys) o true := by
      cases xs <;> rfl
    have h2 : ∀ o2 : Opts, parseArgsAux (y :: ys) o2 true = parseArgsAux (y :: ys) o2 false := by
      intro o2
      conv_lhs => rw [parseArgsAux.eq_def]
      conv_rhs => rw [parseArgsAux.eq_def]
      simp [hy]
    rw [h1, parse_filter_chain xs (y :: ys) o hall, h2]

/-- Claim C9 counterexample: after --filter "" the filter set is the
singleton empty string, it is nonempty, and a regular file with no
extension is selected — contradicting "when any filter is given, files
with no extension are never enqueued". -/
theorem filter_noext_counterexample :
    (parseArgsAux ["--filter", ""] (defaultOpts 4) false).filters = [""] ∧
    (parseArgsAux ["--filter", ""] (defaultOpts 4) false).filters ≠ [] ∧
    selected (parseArgsAux ["--filter", ""] (defaultOpts 4) false).filters
      { isReg := true, ext := "", name := "noext" } = true :=
  ⟨rfl, by decide, rfl⟩

/-- Claim C9 witness: the amended theorem applied to a nonempty non-""
filter set with an extensionless file, and to a --filter list terminated
by "-r". -/
theorem filter_selection_witness :
    selected [".txt"] { isReg := true, ext := "", name := "x" } = false ∧
    parseArgsAux ("--filter" :: ([".cpp", ".h"] ++ "-r" :: [])) (defaultOpts 4) false
      = parseArgsAux ("-r" :: [])
          { defaultOpts 4 with filters := (defaultOpts 4).filters ++ [".cpp", ".h"] } false :=
  ⟨(filter_selection [".txt"] { isReg := true, ext := "", name := "x" }
      (defaultOpts 4) [] [] "x").2.1 (by decide) (by decide) rfl,
    (filter_selection [] { isReg := true, ext := "", name := "" }
      (defaultOpts 4) [".cpp", ".h"] [] "-r").2.2 (by decide) (by decide)⟩

end PFH
